import Mathlib

/-!
Verification of the enchanted-ollama-openrouter-proxy translation layer.

The embedding models the two provider variants (`OpenrouterProvider` in the
repository's two near-duplicate source files) and the `/api/tags` and
`/api/chat` route handlers of `main.go`.

State that Go keeps in the `OpenrouterProvider` struct (`modelNames`) is
passed explicitly; the upstream `ListModels` call is modelled as an
`Except String (List String)` value: either the fetched catalog of
fully-qualified model ids (in listing order) or an upstream error.
-/

/-- `strings.HasSuffix s pat` from Go, at the character level.  For the
strings involved (valid UTF-8 on both sides) byte-suffix and char-suffix
coincide, since UTF-8 is self-synchronizing. -/
def strHasSuffix (s pat : String) : Bool :=
  pat.data.isSuffixOf s.data

/-- `strings.Split s "/"` from Go, at the character level: split on every
occurrence of '/'.  Total, never returns the empty list (Go's `Split` with a
non-empty separator always returns at least one element). -/
def splitOnSlash : List Char → List (List Char)
  | [] => [[]]
  | c :: rest =>
    match splitOnSlash rest with
    | [] => [[]]
    | seg :: segs =>
      if c = '/' then [] :: seg :: segs else (c :: seg) :: segs

/-- `parts := strings.Split(id, "/"); parts[len(parts)-1]` from `GetModels`:
the final '/'-delimited segment of a fully-qualified model id. -/
def lastSeg (id : String) : String :=
  ⟨(splitOnSlash id.data).getLastD []⟩

/-- `ModelDetails` from the provider files (all constant stub values). -/
structure ModelDetails where
  parentModel : String
  format : String
  family : String
  families : List String
  parameterSize : String
  quantizationLevel : String
deriving Repr, DecidableEq

/-- `Model` from the provider files.  The `modifiedAt` timestamp is dropped
(wall-clock time is outside the embedding); all other fields are kept. -/
structure Model where
  name : String
  model : String
  size : Int
  digest : String
  details : ModelDetails
deriving Repr, DecidableEq

/-- The constant `ModelDetails` literal built inside `GetModels`. -/
def stubDetails : ModelDetails :=
  { parentModel := ""
  , format := "gguf"
  , family := "claude"
  , families := ["claude"]
  , parameterSize := "175B"
  , quantizationLevel := "Q4_K_M" }

/-- The `Model` record `GetModels` builds for one catalog entry `id`:
`name`, `model` and `digest` are the final '/'-segment of `id`, `size` is
the stubbed 0. -/
def mkModel (id : String) : Model :=
  { name := lastSeg id
  , model := lastSeg id
  , size := 0
  , digest := lastSeg id
  , details := stubDetails }

/-- `GetModels` (identical in both provider variants), with the provider's
`modelNames` state passed explicitly.  On upstream error it returns the
error and the untouched state; on success it clears and rebuilds
`modelNames` with the catalog's fully-qualified ids in listing order and
returns one `Model` per entry. -/
def getModelsState (u : Except String (List String)) (names : List String) :
    Except String (List Model) × List String :=
  match u with
  | .error e => (.error e, names)
  | .ok catalog => (.ok (catalog.map mkModel), catalog)

/-- `GetFullModelName` of the permissive provider variant: if `modelNames`
is empty, first refresh via `GetModels` (wrapping a failure as
`"failed to get models: "++e`); then first exact match, then first suffix
match, else return the alias unchanged.  Returns the resolved name together
with the (possibly refreshed) `modelNames` state. -/
def getFullModelName (u : Except String (List String)) (names : List String)
    (al : String) : Except String (String × List String) :=
  let step : Except String (List String) :=
    if names.isEmpty then
      match getModelsState u names with
      | (.error e, _) => .error ("failed to get models: " ++ e)
      | (.ok _, names') => .ok names'
    else .ok names
  match step with
  | .error e => .error e
  | .ok ns =>
    match ns.find? (fun n => n == al) with
    | some full => .ok (full, ns)
    | none =>
      match ns.find? (fun n => strHasSuffix n al) with
      | some full => .ok (full, ns)
      | none => .ok (al, ns)

/-- `GetFullModelName` of the strict provider variant: first suffix match,
else a "model alias ... not found" error.  No refresh, no state change. -/
def getFullModelNameStrict (names : List String) (al : String) :
    Except String String :=
  match names.find? (fun n => strHasSuffix n al) with
  | some full => .ok full
  | none => .error ("model alias '" ++ al ++ "' not found")

/-- The `/api/tags` handler of `main.go`: run `GetModels`, then keep a
record only when the filter set is empty or contains the record's `model`
field. -/
def apiTags (filter : List String) (u : Except String (List String))
    (names : List String) : Except String (List Model) × List String :=
  match getModelsState u names with
  | (.error e, names') => (.error e, names')
  | (.ok models, names') =>
    (.ok (models.filter fun m => filter.isEmpty || filter.contains m.model),
     names')

/-- One element of `response.Choices` in a streamed chunk: the delta's
content fragment and finish reason (`""` when absent). -/
structure Delta where
  content : String
  finishReason : String
deriving Repr, DecidableEq

/-- One `response` received from `stream.Recv()`. -/
structure ChatResp where
  choices : List Delta
deriving Repr, DecidableEq

/-- One outbound NDJSON object of the streaming `/api/chat` handler:
either a non-terminal chunk (`done:false`, assistant message content) or
the terminal chunk (`done:true`, finish reason, and the five zero-valued
timing/count statistics fields). -/
inductive OutChunk where
  | delta (content : String)
  | final (finishReason : String)
      (totalDuration loadDuration promptEvalCount evalCount evalDuration : Nat)
deriving Repr, DecidableEq

/-- Whether an outbound chunk has `done:true`. -/
def OutChunk.isDone : OutChunk → Bool
  | .delta _ => false
  | .final _ _ _ _ _ _ => true

/-- An item written to the response body: a chunk, or the in-band error
object written on a mid-stream upstream error. -/
inductive OutItem where
  | chunk (c : OutChunk)
  | errorLine (msg : String)
deriving Repr, DecidableEq

/-- The finish-reason update of the loop body:
`if len(response.Choices) > 0 && response.Choices[0].FinishReason != ""`
then remember it, else keep the previous value. -/
def updFinish (last : String) (r : ChatResp) : String :=
  match r.choices.head? with
  | some d => if d.finishReason != "" then d.finishReason else last
  | none => last

/-- The non-terminal chunk built from one received response.  The code
reads `response.Choices[0].Delta.Content` unconditionally; an empty
`Choices` slice is an out-of-bounds access (a Go panic), modelled as
`none`. -/
def chunkOfResp (r : ChatResp) : Option OutChunk :=
  r.choices.head?.map fun d => OutChunk.delta d.content

/-- The receive loop of the streaming `/api/chat` handler over the
responses received before the stream ended: per response, update the
remembered finish reason and emit one non-terminal chunk.  Returns the
emitted chunks and the final remembered finish reason, or `none` if any
response had no choices (the out-of-bounds panic). -/
def streamLoop (rs : List ChatResp) (last : String) :
    Option (List OutChunk × String) :=
  match rs with
  | [] => some ([], last)
  | r :: rest =>
    let last' := updFinish last r
    match chunkOfResp r with
    | none => none
    | some c =>
      match streamLoop rest last' with
      | none => none
      | some (cs, l) => some (c :: cs, l)

/-- How the upstream stream ended: a clean end-of-stream (`io.EOF`) or an
error from `stream.Recv()`. -/
inductive StreamEnd where
  | eof
  | err (msg : String)
deriving Repr, DecidableEq

/-- The full streaming body of the `/api/chat` handler: the receive loop
over the responses delivered before the end event, then — on clean
end-of-stream — one terminal chunk with the remembered finish reason
(defaulting to "stop") and zeroed statistics, or — on a receive error —
one in-band error object and nothing further. -/
def runChatStream (rs : List ChatResp) (e : StreamEnd) : Option (List OutItem) :=
  match streamLoop rs "" with
  | none => none
  | some (cs, last) =>
    match e with
    | .err m =>
      some (cs.map OutItem.chunk ++ [.errorLine ("Stream error: " ++ m)])
    | .eof =>
      let fin := if last == "" then "stop" else last
      some (cs.map OutItem.chunk ++ [.chunk (.final fin 0 0 0 0 0)])

/-- The dispatch prefix of the `/api/chat` handler: outcome of the steps up
to opening the upstream stream. -/
inductive ChatStep where
  | notImplemented (status : Nat) (msg : String)
  | resolveFailed (status : Nat) (msg : String)
  | proceed (fullModel : String) (names' : List String)
deriving Repr, DecidableEq

/-- The `/api/chat` handler up to opening the upstream stream:
`streamRequested` defaults to `true` when the body's `stream` field is
absent; a request with `stream:false` is answered 501 "Non-streaming
response not implemented yet" before the model alias is resolved; otherwise
the alias is resolved (404 on failure) and streaming proceeds. -/
def chatDispatch (streamField : Option Bool) (al : String)
    (u : Except String (List String)) (names : List String) : ChatStep :=
  let streamRequested := streamField.getD true
  if streamRequested = false then
    .notImplemented 501 "Non-streaming response not implemented yet"
  else
    match getFullModelName u names al with
    | .error e => .resolveFailed 404 e
    | .ok (full, ns) => .proceed full ns

/-- Written from the claims' description of §4.1 resolution over an
alias table `T`: the first table entry equal to the alias, else the first
table entry of which the alias is a string suffix, else the alias itself. -/
def resolveSpec (T : List String) (al : String) : String :=
  match T.find? (fun n => n == al) with
  | some full => full
  | none =>
    match T.find? (fun n => strHasSuffix n al) with
    | some full => full
    | none => al

/-- The content fragment of a received response's first choice (the field
the loop copies into the non-terminal chunk). -/
def contentOf (r : ChatResp) : String :=
  (r.choices.headD ⟨"", ""⟩).content

/-- The finish reason carried by a received response: the first choice's
finish reason when present and non-empty, otherwise nothing. -/
def finOf (r : ChatResp) : Option String :=
  r.choices.head?.bind fun d =>
    if d.finishReason != "" then some d.finishReason else none

/-- Written from the claims: the last non-empty finish reason observed
across the whole delta stream, defaulting to "stop" when none was ever
observed. -/
def lastFinishSpec (rs : List ChatResp) : String :=
  (rs.filterMap finOf).getLastD "stop"

example : strHasSuffix "vendor/X" "X" = true := by decide
example : strHasSuffix "fooX" "/X" = false := by decide
example : lastSeg "vendor/name" = "name" := by decide
example : lastSeg "plain" = "plain" := by decide
example : lastSeg "" = "" := by decide
example :
    getFullModelName (.error "e") ["fooX", "vendor/X"] "X" =
      .ok ("fooX", ["fooX", "vendor/X"]) := rfl
example :
    getFullModelName (.error "e") ["a", ""] "" = .ok ("", ["a", ""]) := rfl
example :
    runChatStream [⟨[⟨"He", ""⟩]⟩, ⟨[⟨"llo", ""⟩]⟩, ⟨[⟨"", "stop"⟩]⟩] .eof =
      some [.chunk (.delta "He"), .chunk (.delta "llo"), .chunk (.delta ""),
            .chunk (.final "stop" 0 0 0 0 0)] := by decide

/-! ### Helper lemmas -/

theorem strHasSuffix_self (s : String) : strHasSuffix s s = true := by
  simp [strHasSuffix, List.isSuffixOf_iff_suffix]

theorem strHasSuffix_append (s t : String) : strHasSuffix (s ++ t) t = true := by
  simp [strHasSuffix, List.isSuffixOf_iff_suffix, String.data_append,
    List.suffix_append]

theorem strHasSuffix_empty (s : String) : strHasSuffix s "" = true := by
  have h0 : ("" : String).data = [] := rfl
  simp [strHasSuffix, h0, List.isSuffixOf_iff_suffix]

theorem splitOnSlash_no_slash : ∀ l : List Char, '/' ∉ l → splitOnSlash l = [l]
  | [], _ => rfl
  | c :: rest, h => by
    have hc : ¬ c = '/' := by intro hcc; exact h (by simp [hcc])
    have hr : '/' ∉ rest := fun hm => h (List.mem_cons_of_mem _ hm)
    simp [splitOnSlash, splitOnSlash_no_slash rest hr, hc]

theorem lastSeg_no_slash (id : String) (h : '/' ∉ id.data) : lastSeg id = id := by
  cases id with
  | mk data => simp [lastSeg, splitOnSlash_no_slash data h]

theorem resolveSpec_cases (T : List String) (al : String) :
    (match T.find? (fun n => n == al) with
     | some full => Except.ok (full, T)
     | none =>
       match T.find? (fun n => strHasSuffix n al) with
       | some full => Except.ok (full, T)
       | none => Except.ok (al, T)) =
      (Except.ok (resolveSpec T al, T) : Except String (String × List String)) := by
  unfold resolveSpec
  cases T.find? (fun n => n == al) with
  | some full => rfl
  | none =>
    cases T.find? (fun n => strHasSuffix n al) with
    | some full => rfl
    | none => rfl

theorem getFullModelName_nonempty (u : Except String (List String))
    (T : List String) (al : String) (h : T ≠ []) :
    getFullModelName u T al = Except.ok (resolveSpec T al, T) := by
  cases T with
  | nil => exact absurd rfl h
  | cons a t => exact resolveSpec_cases (a :: t) al

/-! ### Claim theorems -/

/-- C9: if the upstream listing fetch fails, `GetModels` returns the error
and leaves the alias table (`modelNames`) exactly as it was before the
call; the table is replaced (with the catalog ids) only when the upstream
call has succeeded.  The embedding is shared by both provider variants,
whose `GetModels` bodies are identical. -/
theorem getModels_error_preserves_table :
    (∀ (e : String) (names : List String),
        getModelsState (Except.error e) names = (Except.error e, names))
    ∧ (∀ (catalog names : List String),
        (getModelsState (Except.ok catalog) names).2 = catalog) :=
  ⟨fun _ _ => rfl, fun _ _ => rfl⟩

/-- C5: on a successful upstream catalog fetch, `GetModels` produces one
record per catalog entry, the record's `name` and `model` fields are the
final '/'-delimited segment of that entry's fully-qualified id (the whole
id when it contains no '/'), and the alias table is replaced with exactly
the catalog's fully-qualified ids in listing order. -/
theorem getModels_reshapes_and_refreshes (catalog names₀ : List String) :
    (getModelsState (Except.ok catalog) names₀).2 = catalog
    ∧ (∃ ms : List Model,
        (getModelsState (Except.ok catalog) names₀).1 = Except.ok ms
        ∧ ms.length = catalog.length
        ∧ ∀ i : Nat, ms[i]?.map Model.name = catalog[i]?.map lastSeg
            ∧ ms[i]?.map Model.model = catalog[i]?.map lastSeg)
    ∧ (∀ id : String, '/' ∉ id.data → lastSeg id = id) := by
  refine ⟨rfl, ⟨catalog.map mkModel, rfl, by simp, fun i => ⟨?_, ?_⟩⟩,
    fun id h => lastSeg_no_slash id h⟩
  all_goals
    cases hi : catalog[i]? with
    | none => simp [hi]
    | some id => simp [hi, mkModel]

/-- C5 witness at a concrete catalog: a vendor-prefixed id is shortened to
its final segment and an unprefixed id passes through unchanged, while the
table receives the full ids. -/
theorem getModels_reshapes_and_refreshes_witness :
    (getModelsState (Except.ok ["vendor/name", "plain"]) []).2 =
        ["vendor/name", "plain"]
    ∧ lastSeg "plain" = "plain" :=
  ⟨(getModels_reshapes_and_refreshes ["vendor/name", "plain"] []).1,
   (getModels_reshapes_and_refreshes ["vendor/name", "plain"] []).2.2 "plain"
     (by decide)⟩

/-- C6: the `/api/tags` handler includes a record exactly when the filter
set is empty or the record's short display name (`model` field) is in the
filter set, and the alias table written by the underlying `GetModels` call
does not depend on the filter. -/
theorem apiTags_filter_spec (filter catalog names₀ : List String) :
    (∃ ms : List Model,
        (apiTags filter (Except.ok catalog) names₀).1 = Except.ok ms
        ∧ ∀ m : Model,
            m ∈ ms ↔ m ∈ catalog.map mkModel ∧ (filter = [] ∨ m.model ∈ filter))
    ∧ ∀ u : Except String (List String),
        (apiTags filter u names₀).2 = (getModelsState u names₀).2 := by
  constructor
  · refine ⟨(catalog.map mkModel).filter
        (fun m => filter.isEmpty || filter.contains m.model), rfl, ?_⟩
    intro m
    simp [List.mem_filter, List.isEmpty_iff]
  · intro u; cases u <;> rfl

/-- C6 witness: with filter `{"foo"}` over catalog `{"foo","bar"}`, the
alias table refresh is the same as an unfiltered `GetModels`. -/
theorem apiTags_filter_spec_witness :
    (apiTags ["foo"] (Except.ok ["foo", "bar"]) []).2 =
      (getModelsState (Except.ok ["foo", "bar"]) []).2 :=
  (apiTags_filter_spec ["foo"] ["foo", "bar"] []).2 (Except.ok ["foo", "bar"])

/-- C7: a chat request with `stream:false` is answered with the explicit
501 "Non-streaming response not implemented yet" failure, for every alias,
upstream and alias-table state (so no alias resolution and no upstream
contact can influence the answer); an absent `stream` field behaves
exactly like `stream:true`. -/
theorem chat_nonstreaming_dispatch :
    (∀ (al : String) (u : Except String (List String)) (names : List String),
        chatDispatch (some false) al u names =
          ChatStep.notImplemented 501 "Non-streaming response not implemented yet")
    ∧ (∀ (al : String) (u : Except String (List String)) (names : List String),
        chatDispatch none al u names = chatDispatch (some true) al u names) := by
  constructor <;> intro al u names <;> rfl

theorem find?_suffix_unique (v X : String) : ∀ T : List String,
    v ++ "/" ++ X ∈ T →
    (∀ n ∈ T, n ≠ v ++ "/" ++ X → strHasSuffix n X = false) →
    T.find? (fun n => strHasSuffix n X) = some (v ++ "/" ++ X) := by
  intro T
  induction T with
  | nil => intro hmem _; exact absurd hmem (List.not_mem_nil _)
  | cons a t ih =>
    intro hmem hother
    by_cases ha : a = v ++ "/" ++ X
    · subst ha
      simp [List.find?_cons, strHasSuffix_append]
    · have hmem' : v ++ "/" ++ X ∈ t := by
        rcases List.mem_cons.mp hmem with h1 | h1
        · exact absurd h1.symm ha
        · exact h1
      have hsa : strHasSuffix a X = false :=
        hother a (List.mem_cons_self a t) ha
      rw [List.find?_cons, hsa]
      exact ih hmem' (fun n hn hne => hother n (List.mem_cons_of_mem a hn) hne)

/-- C1: the permissive `GetFullModelName` resolves in the claimed order.
With a non-empty table it never consults the upstream and returns, without
error, the first exact match, else the first suffix match, else the alias
itself (`resolveSpec`).  With an empty table it first refreshes via
`GetModels`: if that fails it returns exactly that wrapped error, and
otherwise it resolves the same way over the freshly fetched catalog. -/
theorem getFullModelName_resolution_order (u : Except String (List String))
    (names : List String) (al : String) :
    (∀ e : String, names = [] → u = Except.error e →
        getFullModelName u names al =
          Except.error ("failed to get models: " ++ e))
    ∧ (names ≠ [] →
        getFullModelName u names al = Except.ok (resolveSpec names al, names))
    ∧ (∀ catalog : List String, names = [] → u = Except.ok catalog →
        getFullModelName u names al =
          Except.ok (resolveSpec catalog al, catalog)) := by
  refine ⟨?_, ?_, ?_⟩
  · rintro e rfl rfl; rfl
  · intro h; exact getFullModelName_nonempty u names al h
  · rintro catalog rfl rfl
    exact resolveSpec_cases catalog al

/-- C1 witness: the three branches at concrete inputs — a failing refresh
on an empty table, a non-empty table resolving a suffix alias, and a
successful refresh on an empty table. -/
theorem getFullModelName_resolution_order_witness :
    getFullModelName (Except.error "boom") [] "m" =
        Except.error ("failed to get models: " ++ "boom")
    ∧ getFullModelName (Except.error "boom") ["a/m"] "m" =
        Except.ok (resolveSpec ["a/m"] "m", ["a/m"])
    ∧ getFullModelName (Except.ok ["a/m"]) [] "m" =
        Except.ok (resolveSpec ["a/m"] "m", ["a/m"]) :=
  ⟨(getFullModelName_resolution_order (Except.error "boom") [] "m").1 "boom"
      rfl rfl,
   (getFullModelName_resolution_order (Except.error "boom") ["a/m"] "m").2.1
      (by decide),
   (getFullModelName_resolution_order (Except.ok ["a/m"]) [] "m").2.2 ["a/m"]
      rfl rfl⟩

/-- C3 counterexample: the catalog `["fooX", "vendor/X"]` contains the
fully-qualified id `"vendor/X"` and no other entry ends in `"/X"` (the
entry `"fooX"` does not), yet resolving the alias `"X"` returns `"fooX"`,
because the code's suffix test only requires the alias itself — not
`"/" ++ alias` — to be a suffix, and `"fooX"` comes first. -/
theorem resolve_vendor_suffix_counterexample :
    ("vendor/X" : String) = "vendor" ++ "/" ++ "X"
    ∧ strHasSuffix "fooX" "/X" = false
    ∧ getFullModelName (Except.error "e") ["fooX", "vendor/X"] "X" =
        Except.ok ("fooX", ["fooX", "vendor/X"])
    ∧ ("fooX" : String) ≠ "vendor/X" :=
  ⟨by decide, by decide, rfl, by decide⟩

/-- C3 amended: if the table contains `v ++ "/" ++ X` and no other entry
has `X` as a string suffix (a strictly stronger side condition than "no
other entry ends in /X"), then resolving `X` returns `v ++ "/" ++ X`. -/
theorem resolve_vendor_suffix_amended (u : Except String (List String))
    (T : List String) (v X : String)
    (hmem : v ++ "/" ++ X ∈ T)
    (hother : ∀ n ∈ T, n ≠ v ++ "/" ++ X → strHasSuffix n X = false) :
    getFullModelName u T X = Except.ok (v ++ "/" ++ X, T) := by
  have hXne : X ≠ v ++ "/" ++ X := by
    intro he
    have hl := congrArg String.length he
    rw [String.length_append, String.length_append] at hl
    have h1 : ("/" : String).length = 1 := rfl
    rw [h1] at hl
    omega
  have heq : T.find? (fun n => n == X) = none := by
    rw [List.find?_eq_none]
    intro n hn hbeq
    have hnx : n = X := by simpa using hbeq
    subst hnx
    have hfalse := hother n hn hXne
    rw [strHasSuffix_self] at hfalse
    cases hfalse
  rw [getFullModelName_nonempty u T X (List.ne_nil_of_mem hmem)]
  simp [resolveSpec, heq, find?_suffix_unique v X T hmem hother]

/-- C3 amended witness at a singleton catalog. -/
theorem resolve_vendor_suffix_amended_witness :
    getFullModelName (Except.error "e") ["vendor/X"] "X" =
      Except.ok ("vendor" ++ "/" ++ "X", ["vendor/X"]) :=
  resolve_vendor_suffix_amended (Except.error "e") ["vendor/X"] "vendor" "X"
    (by decide) (by decide)

/-- C8 counterexample: on the non-empty table `["a", ""]` the permissive
variant resolves the empty alias to `""` — the exact-match pass finds the
entry `""` — not to the first entry `"a"`. -/
theorem resolve_empty_alias_counterexample :
    (["a", ""] : List String) ≠ []
    ∧ (["a", ""] : List String).head? = some "a"
    ∧ getFullModelName (Except.error "e") ["a", ""] "" =
        Except.ok ("", ["a", ""])
    ∧ ("" : String) ≠ "a" :=
  ⟨by decide, by decide, rfl, by decide⟩

/-- C8 amended: resolving the empty alias on a non-empty table returns the
first entry in the strict variant unconditionally (every string has `""`
as a suffix), and in the permissive variant provided `""` is not itself a
table entry (otherwise the permissive exact-match pass returns `""`). -/
theorem resolve_empty_alias_amended (u : Except String (List String))
    (T : List String) :
    (T ≠ [] → ∃ x, T.head? = some x
        ∧ getFullModelNameStrict T "" = Except.ok x)
    ∧ (T ≠ [] → "" ∉ T → ∃ x, T.head? = some x
        ∧ getFullModelName u T "" = Except.ok (x, T)) := by
  constructor
  · intro h
    cases T with
    | nil => exact absurd rfl h
    | cons a t =>
      refine ⟨a, rfl, ?_⟩
      simp [getFullModelNameStrict, List.find?_cons, strHasSuffix_empty]
  · intro h h2
    cases T with
    | nil => exact absurd rfl h
    | cons a t =>
      refine ⟨a, rfl, ?_⟩
      rw [getFullModelName_nonempty u (a :: t) "" (by simp)]
      have heq : (a :: t).find? (fun n => n == "") = none := by
        rw [List.find?_eq_none]
        intro x hx hbeq
        have : x = "" := by simpa using hbeq
        subst this
        exact h2 hx
      simp [resolveSpec, heq, List.find?_cons, strHasSuffix_empty]

/-- C8 amended witness at a concrete singleton table. -/
theorem resolve_empty_alias_amended_witness :
    (∃ x, (["x/y"] : List String).head? = some x
        ∧ getFullModelNameStrict ["x/y"] "" = Except.ok x)
    ∧ (∃ x, (["x/y"] : List String).head? = some x
        ∧ getFullModelName (Except.error "e") ["x/y"] "" =
            Except.ok (x, ["x/y"])) :=
  ⟨(resolve_empty_alias_amended (Except.error "e") ["x/y"]).1 (by decide),
   (resolve_empty_alias_amended (Except.error "e") ["x/y"]).2 (by decide)
     (by decide)⟩

theorem updFinish_eq_getD (last : String) (r : ChatResp) :
    updFinish last r = (finOf r).getD last := by
  unfold updFinish finOf
  cases r.choices.head? with
  | none => rfl
  | some d =>
    by_cases hb : d.finishReason = ""
    · simp [hb]
    · simp [hb]

theorem foldl_updFinish (rs : List ChatResp) : ∀ acc : String,
    List.foldl updFinish acc rs = (rs.filterMap finOf).getLastD acc := by
  induction rs with
  | nil => intro acc; rfl
  | cons r rest ih =>
    intro acc
    rw [List.foldl_cons, ih, List.filterMap_cons]
    cases hf : finOf r with
    | none => rw [updFinish_eq_getD, hf]; rfl
    | some v => rw [updFinish_eq_getD, hf, List.getLastD_cons]; rfl

theorem filterMap_finOf_ne_empty (rs : List ChatResp) :
    ∀ v ∈ rs.filterMap finOf, v ≠ "" := by
  intro v hv
  obtain ⟨r, _, hf⟩ := List.mem_filterMap.mp hv
  unfold finOf at hf
  cases hd : r.choices.head? with
  | none => rw [hd] at hf; cases hf
  | some d =>
    rw [hd] at hf
    by_cases hfr : d.finishReason = ""
    · simp [hfr] at hf
    · simp [hfr] at hf
      exact hf ▸ hfr

theorem getLastD_stop (l : List String) (h : ∀ v ∈ l, v ≠ "") :
    (if l.getLastD "" = "" then "stop" else l.getLastD "") =
      l.getLastD "stop" := by
  rw [List.getLastD_eq_getLast?, List.getLastD_eq_getLast?]
  cases hl : l.getLast? with
  | none => rfl
  | some v =>
    have hv : v ∈ l := by
      obtain ⟨hne, he⟩ := List.mem_getLast?_eq_getLast (l := l) (x := v) hl
      exact he ▸ List.getLast_mem hne
    simp [Option.getD, h v hv]

theorem streamLoop_ok (rs : List ChatResp) : ∀ acc : String,
    (∀ r ∈ rs, r.choices ≠ []) →
    streamLoop rs acc =
      some (rs.map fun r => OutChunk.delta (contentOf r),
        List.foldl updFinish acc rs) := by
  induction rs with
  | nil => intro acc _; rfl
  | cons r rest ih =>
    intro acc h
    have hr : r.choices ≠ [] := h r (List.mem_cons_self r rest)
    obtain ⟨d, t, hd⟩ : ∃ d t, r.choices = d :: t := by
      cases hc : r.choices with
      | nil => exact absurd hc hr
      | cons d t => exact ⟨d, t, rfl⟩
    have hrest := ih (updFinish acc r) (fun x hx => h x (List.mem_cons_of_mem r hx))
    simp [streamLoop, chunkOfResp, hd, hrest, contentOf, List.foldl_cons]

theorem runChatStream_eof (rs : List ChatResp)
    (h : ∀ r ∈ rs, r.choices ≠ []) :
    runChatStream rs StreamEnd.eof =
      some ((rs.map fun r => OutItem.chunk (OutChunk.delta (contentOf r))) ++
        [OutItem.chunk (OutChunk.final (lastFinishSpec rs) 0 0 0 0 0)]) := by
  have hfin :
      (if List.foldl updFinish "" rs = "" then "stop"
       else List.foldl updFinish "" rs) = lastFinishSpec rs := by
    unfold lastFinishSpec
    rw [foldl_updFinish rs ""]
    exact getLastD_stop _ (filterMap_finOf_ne_empty rs)
  simp [runChatStream, streamLoop_ok rs "" h, hfin, Function.comp]

theorem streamLoop_isSome (rs : List ChatResp) : ∀ last : String,
    (streamLoop rs last).isSome = rs.all fun r => !r.choices.isEmpty := by
  induction rs with
  | nil => intro last; rfl
  | cons r rest ih =>
    intro last
    cases hc : r.choices with
    | nil => simp [streamLoop, chunkOfResp, hc, List.all_cons]
    | cons d t =>
      have hch : chunkOfResp r = some (OutChunk.delta d.content) := by
        simp [chunkOfResp, hc]
      have h2 := ih (updFinish last r)
      cases hsl : streamLoop rest (updFinish last r) with
      | none =>
        rw [hsl] at h2
        simp [streamLoop, hch, hsl, hc, List.all_cons, ← h2]
      | some p =>
        rw [hsl] at h2
        simp [streamLoop, hch, hsl, hc, List.all_cons, ← h2]

/-- C2: over a clean upstream stream whose every response carries at least
one choice, the handler emits exactly one `done:false` chunk per received
delta, in order, carrying that delta's content fragment, followed by
exactly one terminal `done:true` chunk whose finish reason is the last
non-empty finish reason observed (or "stop" if none) and whose five
timing/count fields are zero; in particular the spec's 3-delta example
yields exactly 4 chunks. -/
theorem chat_stream_clean_translation (rs : List ChatResp)
    (h : ∀ r ∈ rs, r.choices ≠ []) :
    runChatStream rs StreamEnd.eof =
        some ((rs.map fun r => OutItem.chunk (OutChunk.delta (contentOf r))) ++
          [OutItem.chunk (OutChunk.final (lastFinishSpec rs) 0 0 0 0 0)])
    ∧ runChatStream [⟨[⟨"He", ""⟩]⟩, ⟨[⟨"llo", ""⟩]⟩, ⟨[⟨"", "stop"⟩]⟩]
          StreamEnd.eof =
        some [OutItem.chunk (OutChunk.delta "He"),
          OutItem.chunk (OutChunk.delta "llo"),
          OutItem.chunk (OutChunk.delta ""),
          OutItem.chunk (OutChunk.final "stop" 0 0 0 0 0)] :=
  ⟨runChatStream_eof rs h, by decide⟩

/-- C2 witness: the spec's 3-delta example evaluates to exactly the 4
expected chunks. -/
theorem chat_stream_clean_translation_witness :
    runChatStream [⟨[⟨"He", ""⟩]⟩, ⟨[⟨"llo", ""⟩]⟩, ⟨[⟨"", "stop"⟩]⟩]
        StreamEnd.eof =
      some [OutItem.chunk (OutChunk.delta "He"),
        OutItem.chunk (OutChunk.delta "llo"),
        OutItem.chunk (OutChunk.delta ""),
        OutItem.chunk (OutChunk.final "stop" 0 0 0 0 0)] :=
  (chat_stream_clean_translation
    [⟨[⟨"He", ""⟩]⟩, ⟨[⟨"llo", ""⟩]⟩, ⟨[⟨"", "stop"⟩]⟩] (by decide)).2

/-- C4: when the upstream stream fails before the clean end marker, the
handler writes the chunks already translated, then a single in-band error
object, and stops: the error object is the last item written and no
`done:true` chunk appears anywhere in the output. -/
theorem chat_stream_error_abort (rs : List ChatResp) (msg : String)
    (h : ∀ r ∈ rs, r.choices ≠ []) :
    ∃ pre : List OutItem,
      runChatStream rs (StreamEnd.err msg) =
          some (pre ++ [OutItem.errorLine ("Stream error: " ++ msg)])
      ∧ (∀ it ∈ pre, ∃ s, it = OutItem.chunk (OutChunk.delta s))
      ∧ (∀ it ∈ pre ++ [OutItem.errorLine ("Stream error: " ++ msg)],
          ∀ c, it = OutItem.chunk c → c.isDone = false) := by
  refine ⟨rs.map fun r => OutItem.chunk (OutChunk.delta (contentOf r)),
    ?_, ?_, ?_⟩
  · simp [runChatStream, streamLoop_ok rs "" h]
  · intro it hit
    obtain ⟨r, _, rfl⟩ := List.mem_map.mp hit
    exact ⟨contentOf r, rfl⟩
  · intro it hit c hc
    rcases List.mem_append.mp hit with hpre | hlast
    · obtain ⟨r, _, rfl⟩ := List.mem_map.mp hpre
      injection hc with hc'
      rw [← hc']
      rfl
    · have : it = OutItem.errorLine ("Stream error: " ++ msg) := by
        simpa using hlast
      subst this
      cases hc

/-- C4 witness at a one-delta stream failing with "boom". -/
theorem chat_stream_error_abort_witness :
    ∃ pre : List OutItem,
      runChatStream [⟨[⟨"He", ""⟩]⟩] (StreamEnd.err "boom") =
          some (pre ++ [OutItem.errorLine ("Stream error: " ++ "boom")])
      ∧ (∀ it ∈ pre, ∃ s, it = OutItem.chunk (OutChunk.delta s))
      ∧ (∀ it ∈ pre ++ [OutItem.errorLine ("Stream error: " ++ "boom")],
          ∀ c, it = OutItem.chunk c → c.isDone = false) :=
  chat_stream_error_abort [⟨[⟨"He", ""⟩]⟩] "boom" (by decide)

/-- C10: the per-delta translation step of the streaming loop is total
exactly when every received response carries at least one choice — the
chunk construction reads the first choice unconditionally and fails (the
modelled out-of-bounds access) on an empty choices list — while the
finish-reason update is guarded and leaves the remembered value unchanged
on an empty choices list. -/
theorem stream_step_choices_guard (rs : List ChatResp) (last : String) :
    ((streamLoop rs last).isSome = true ↔ ∀ r ∈ rs, r.choices ≠ [])
    ∧ (∀ r : ChatResp, (chunkOfResp r).isSome = true ↔ r.choices ≠ [])
    ∧ (∀ (last' : String) (r : ChatResp), r.choices = [] →
        updFinish last' r = last') := by
  refine ⟨?_, ?_, ?_⟩
  · rw [streamLoop_isSome]
    simp [List.all_eq_true, List.isEmpty_iff]
  · intro r
    cases hc : r.choices <;> simp [chunkOfResp, hc]
  · intro last' r hr
    simp [updFinish, hr]

/-- C10 witness: a one-choice response stream translates successfully. -/
theorem stream_step_choices_guard_witness :
    (streamLoop [⟨[⟨"hi", ""⟩]⟩] "").isSome = true :=
  (stream_step_choices_guard [⟨[⟨"hi", ""⟩]⟩] "").1.mpr (by decide)
